import Mathlib

/-!
Verification of the relational aggregation and grouping engine of the
registration-list renderer (`src/registration_list.rs`).

The Rust handler `render_registration_list` loads, in a fixed number of
queries, a competition (optional), a race list, a special-category list,
a participant list and a membership list, then reconstructs the nested
report structure with a single forward pass over the participant list.
We embed the post-load computation shallowly: each Rust struct becomes a
Lean structure, the stateful `peekable` iterator becomes explicit
recursion threading the unconsumed suffix, and the fallible handler
returns `Except Error`.
-/

namespace RegistrationList

/-- Database identifier, `crate::database::Id`. -/
abbrev Id := Nat

/-- Stand-in for `time::PrimitiveDateTime`; the grouping logic never
inspects it. -/
abbrev PrimitiveDateTime := Nat

/-- Modelled from the spec: `Competition` (identity plus display
metadata), defined in `database/shared_models` which is not part of the
sources given; only opacity matters here. -/
structure Competition where
  id : Id
  name : String
  deriving Repr, DecidableEq

/-- Modelled from the spec: `Race` from `database/shared_models` carries
the grouping key `name` and the denormalized ordering attribute
`from_age`. -/
structure Race where
  name : String
  from_age : Int
  deriving Repr, DecidableEq

/-- Modelled from the spec: one `SpecialCategories` row (race-scoped
eligibility tag) from `database/shared_models`: identity, label, owning
race. -/
structure SpecialCategories where
  id : Id
  label : String
  race_id : Id
  deriving Repr, DecidableEq

/-- Modelled from the spec: one `SpecialCategoryPerParticipant` row
(membership relation) from `database/shared_models`. -/
structure SpecialCategoryPerParticipant where
  participant_id : Id
  special_category_id : Id
  deriving Repr, DecidableEq

/-- `ParticipantEntry` from `src/registration_list.rs` lines 30-52: the
denormalized participant row, including the owning race's name. -/
structure ParticipantEntry where
  id : Id
  first_name : String
  last_name : String
  club : Option String
  birth_year : Int
  start_time : PrimitiveDateTime
  «class» : String
  race_name : String
  deriving Repr, DecidableEq

/-- `ParticipantEntryWithSpecialCategory` (lines 55-62): a participant
plus its ordered membership flag vector. -/
structure ParticipantEntryWithSpecialCategory where
  participant : ParticipantEntry
  special_categories : List Bool
  deriving Repr, DecidableEq

/-- `ParticipantsPerRace` (lines 65-72): one output race group. -/
structure ParticipantsPerRace where
  race_name : String
  participants : List ParticipantEntryWithSpecialCategory
  special_categories : List SpecialCategories
  deriving Repr, DecidableEq

/-- `RegistrationListData` (lines 78-83): the full view model handed to
the template. -/
structure RegistrationListData where
  race_map : List ParticipantsPerRace
  competition_info : Competition
  deriving Repr, DecidableEq

/-- Modelled from the spec: the error type of `crate::errors` exposes a
`NotFound` outcome and a data-access failure class. -/
inductive Error where
  | NotFound (msg : String) : Error
  | DataAccessFailure (msg : String) : Error
  deriving Repr, DecidableEq

/-- The membership flag computation of lines 211-218: for each category
of the race, in order, test whether the participant's membership rows
contain its id. -/
def resolveFlags (special_categories : List SpecialCategories)
    (memberships : List SpecialCategoryPerParticipant) : List Bool :=
  special_categories.map fun cat =>
    memberships.any fun c => c.special_category_id == cat.id

/-- The inner `while let ... peek` loop of lines 205-226 for one race:
consume zipped (participant, memberships) pairs while the lookahead's
`race_name` equals the race's name, wrapping each into
`ParticipantEntryWithSpecialCategory`; return the group together with
the unconsumed suffix of the iterator. -/
def takeGroup (raceName : String) (special_categories : List SpecialCategories) :
    List (ParticipantEntry × List SpecialCategoryPerParticipant) →
      List ParticipantEntryWithSpecialCategory ×
        List (ParticipantEntry × List SpecialCategoryPerParticipant)
  | [] => ([], [])
  | (p, m) :: rest =>
    if p.race_name = raceName then
      let res := takeGroup raceName special_categories rest
      ({ participant := p, special_categories := resolveFlags special_categories m }
          :: res.1,
        res.2)
    else ([], (p, m) :: rest)

/-- The outer `races.into_iter().zip(special_categories).map(...)` pass of
lines 201-233, with the shared `peekable` participant iterator made an
explicit threaded argument. -/
def race_map_fold :
    List (Race × List SpecialCategories) →
      List (ParticipantEntry × List SpecialCategoryPerParticipant) →
        List ParticipantsPerRace
  | [], _ => []
  | (race, special_categories) :: rest, ps =>
    let res := takeGroup race.name special_categories ps
    { race_name := race.name
      participants := res.1
      special_categories := special_categories } :: race_map_fold rest res.2

/-- The race map actually computed by the handler: lines 158 and 181-182
replace the loaded special-category and membership result sets with
per-race and per-participant empty vectors before the grouping pass of
lines 196-233 runs. -/
def renderRaceMap (races : List Race) (participant_list : List ParticipantEntry) :
    List ParticipantsPerRace :=
  race_map_fold
    (races.zip (List.replicate races.length ([] : List SpecialCategories)))
    (participant_list.zip
      (List.replicate participant_list.length
        ([] : List SpecialCategoryPerParticipant)))

/-- The handler `render_registration_list` (lines 86-242) from the point
where the five query results are available: the loaded special-category
and membership rows are parameters but are discarded (lines 158,
181-182); an absent competition becomes `Error.NotFound` (lines
193-194); otherwise the grouped view model is assembled. -/
def render_registration_list (competition_id : Id)
    (competition_info : Option Competition) (races : List Race)
    (loaded_special_categories : List SpecialCategories)
    (participant_list : List ParticipantEntry)
    (loaded_memberships : List SpecialCategoryPerParticipant) :
    Except Error RegistrationListData :=
  let special_categories :=
    List.replicate races.length ([] : List SpecialCategories)
  let special_categories_per_participant :=
    List.replicate participant_list.length
      ([] : List SpecialCategoryPerParticipant)
  match competition_info with
  | none =>
      Except.error (Error.NotFound s!"No competition for id {competition_id} found")
  | some competition_info =>
      Except.ok
        { race_map :=
            race_map_fold (races.zip special_categories)
              (participant_list.zip special_categories_per_participant)
          competition_info := competition_info }

/-- The §3 grouping invariant: the participant sequence is a
concatenation of blocks, one per race in race order, each block's rows
all carrying that race's name (per-race contiguity consistent with the
race sequence's order). -/
inductive GroupedByRaces : List Race → List ParticipantEntry → Prop
  | nil : GroupedByRaces [] []
  | cons {race : Race} {rest : List Race} {block ps : List ParticipantEntry}
      (hblock : ∀ p ∈ block, p.race_name = race.name)
      (htail : GroupedByRaces rest ps) :
      GroupedByRaces (race :: rest) (block ++ ps)

/-! ## Concrete sample data (used by witnesses) -/

/-- Sample race, cf. the example of spec §8. -/
def race5km : Race := ⟨"5km", 10⟩

/-- Sample race, cf. the example of spec §8. -/
def race10km : Race := ⟨"10km", 18⟩

/-- Sample special category attached to the 5km race. -/
def catLocal : SpecialCategories := ⟨7, "local", 1⟩

/-- Sample special category attached to the 5km race. -/
def catVeteran : SpecialCategories := ⟨9, "veteran", 1⟩

/-- Sample membership row: participant 1 is in category 7. -/
def memLocal : SpecialCategoryPerParticipant := ⟨1, 7⟩

/-- Sample membership row: participant 1 is in category 9. -/
def memVeteran : SpecialCategoryPerParticipant := ⟨1, 9⟩

/-- Sample 5km participant. -/
def alice : ParticipantEntry := ⟨1, "Alice", "Ahl", none, 2014, 540, "U12", "5km"⟩

/-- Sample 5km participant. -/
def bob : ParticipantEntry := ⟨2, "Bob", "Bern", some "SC Alp", 2013, 540, "U12", "5km"⟩

/-- Sample 10km participant. -/
def carol : ParticipantEntry := ⟨3, "Carol", "Chen", none, 1990, 600, "W40", "10km"⟩

/-! ## Helper lemmas -/

theorem zip_replicate {α β : Type} (l : List α) (x : β) :
    l.zip (List.replicate l.length x) = l.map fun a => (a, x) := by
  induction l with
  | nil => rfl
  | cons a t ih => simp [List.replicate_succ, ih]

theorem takeGroup_proj (n : String) (sc : List SpecialCategories)
    (l : List (ParticipantEntry × List SpecialCategoryPerParticipant)) :
    (takeGroup n sc l).1.map (·.participant) ++ (takeGroup n sc l).2.map Prod.fst
      = l.map Prod.fst := by
  induction l with
  | nil => rfl
  | cons pm t ih =>
    obtain ⟨p, m⟩ := pm
    by_cases h : p.race_name = n
    · simp only [takeGroup, if_pos h, List.map_cons, List.cons_append]
      rw [ih]
    · simp [takeGroup, h]

theorem takeGroup_suffix (n : String) (sc : List SpecialCategories)
    (l : List (ParticipantEntry × List SpecialCategoryPerParticipant)) :
    ∃ c, l = c ++ (takeGroup n sc l).2 := by
  induction l with
  | nil => exact ⟨[], rfl⟩
  | cons pm t ih =>
    obtain ⟨p, m⟩ := pm
    by_cases h : p.race_name = n
    · obtain ⟨c, hc⟩ := ih
      refine ⟨(p, m) :: c, ?_⟩
      simp only [takeGroup, if_pos h, List.cons_append]
      exact congrArg _ hc
    · exact ⟨[], by simp [takeGroup, h]⟩

theorem takeGroup_stop (n : String) (sc : List SpecialCategories)
    (l : List (ParticipantEntry × List SpecialCategoryPerParticipant)) :
    (takeGroup n sc l).2 = [] ∨
      ∃ p m t, (takeGroup n sc l).2 = (p, m) :: t ∧ p.race_name ≠ n := by
  induction l with
  | nil => left; rfl
  | cons pm t ih =>
    obtain ⟨p, m⟩ := pm
    by_cases h : p.race_name = n
    · simpa only [takeGroup, if_pos h] using ih
    · right
      exact ⟨p, m, t, by simp [takeGroup, h], h⟩

theorem takeGroup_mem (n : String) (sc : List SpecialCategories)
    (l : List (ParticipantEntry × List SpecialCategoryPerParticipant)) :
    ∀ e ∈ (takeGroup n sc l).1,
      e.participant.race_name = n ∧
        ∃ m, e.special_categories = resolveFlags sc m := by
  induction l with
  | nil => intro e he; simp [takeGroup] at he
  | cons pm t ih =>
    obtain ⟨p, m⟩ := pm
    by_cases h : p.race_name = n
    · intro e he
      simp only [takeGroup, if_pos h, List.mem_cons] at he
      rcases he with rfl | he
      · exact ⟨h, m, rfl⟩
      · exact ih e he
    · intro e he
      simp [takeGroup, h] at he

theorem groupedByRaces_nil_right (races : List Race) :
    GroupedByRaces races [] := by
  induction races with
  | nil => exact GroupedByRaces.nil
  | cons r rs ih =>
    have h : GroupedByRaces (r :: rs) ([] ++ []) :=
      GroupedByRaces.cons (by intro p hp; cases hp) ih
    simpa using h

theorem groupedByRaces_tail {races : List Race} {p : ParticipantEntry}
    {l : List ParticipantEntry} (h : GroupedByRaces races (p :: l)) :
    GroupedByRaces races l := by
  generalize hq : p :: l = q at h
  induction h generalizing p l with
  | nil => cases hq
  | @cons race rest block ps hblock htail ih =>
    cases block with
    | nil =>
      simp only [List.nil_append] at hq
      have h2 : GroupedByRaces rest l := ih hq
      have h3 : GroupedByRaces (race :: rest) ([] ++ l) :=
        GroupedByRaces.cons (by intro x hx; cases hx) h2
      simpa using h3
    | cons b block₂ =>
      rw [List.cons_append] at hq
      injection hq with h1 h2
      rw [h2]
      exact GroupedByRaces.cons
        (fun x hx => hblock x (List.mem_cons_of_mem b hx)) htail

theorem groupedByRaces_append_left {races : List Race}
    {a b : List ParticipantEntry} (h : GroupedByRaces races (a ++ b)) :
    GroupedByRaces races b := by
  induction a with
  | nil => simpa using h
  | cons x t ih => exact ih (groupedByRaces_tail (by simpa using h))

theorem groupedByRaces_behead {r : Race} {rs : List Race}
    {l : List ParticipantEntry} (h : GroupedByRaces (r :: rs) l)
    (hhd : ∀ p ∈ l.head?, p.race_name ≠ r.name) :
    GroupedByRaces rs l := by
  cases h with
  | @cons _ _ block ps hblock htail =>
    cases block with
    | nil => simpa using htail
    | cons b block₂ =>
      exfalso
      have hb : b.race_name = r.name := hblock b (by simp)
      exact hhd b (by simp) hb

theorem race_map_fold_names
    (rsc : List (Race × List SpecialCategories))
    (ps : List (ParticipantEntry × List SpecialCategoryPerParticipant)) :
    (race_map_fold rsc ps).map (·.race_name) = rsc.map (fun x => x.1.name) := by
  induction rsc generalizing ps with
  | nil => rfl
  | cons hd t ih =>
    obtain ⟨race, sc⟩ := hd
    simp [race_map_fold, ih]

theorem race_map_fold_mem {g : ParticipantsPerRace}
    (rsc : List (Race × List SpecialCategories))
    (ps : List (ParticipantEntry × List SpecialCategoryPerParticipant))
    (hg : g ∈ race_map_fold rsc ps) :
    ∃ race sc l, (race, sc) ∈ rsc ∧
      g = { race_name := race.name
            participants := (takeGroup race.name sc l).1
            special_categories := sc } := by
  induction rsc generalizing ps with
  | nil => simp [race_map_fold] at hg
  | cons hd t ih =>
    obtain ⟨race, sc⟩ := hd
    simp only [race_map_fold, List.mem_cons] at hg
    rcases hg with rfl | hg
    · exact ⟨race, sc, ps, by simp, rfl⟩
    · obtain ⟨race₂, sc₂, l₂, hmem, hgeq⟩ := ih _ hg
      exact ⟨race₂, sc₂, l₂, by simp [hmem], hgeq⟩

theorem race_map_fold_flatten_of_grouped (races : List Race)
    (scs : List (List SpecialCategories))
    (ps : List (ParticipantEntry × List SpecialCategoryPerParticipant))
    (h : GroupedByRaces races (ps.map Prod.fst))
    (hlen : races.length = scs.length) :
    ((race_map_fold (races.zip scs) ps).map
        (fun g => g.participants.map (·.participant))).flatten
      = ps.map Prod.fst := by
  induction races generalizing scs ps with
  | nil =>
    generalize hl : ps.map Prod.fst = l at h
    cases h
    simp [race_map_fold, hl]
  | cons r rs ih =>
    cases scs with
    | nil => simp at hlen
    | cons sc scs₂ =>
      obtain ⟨c, hc⟩ := takeGroup_suffix r.name sc ps
      have hdrop : GroupedByRaces (r :: rs) ((takeGroup r.name sc ps).2.map Prod.fst) := by
        have := h
        rw [hc, List.map_append] at this
        exact groupedByRaces_append_left this
      have hhd : ∀ p ∈ ((takeGroup r.name sc ps).2.map Prod.fst).head?,
          p.race_name ≠ r.name := by
        rcases takeGroup_stop r.name sc ps with hnil | ⟨p, m, t, heq, hne⟩
        · simp [hnil]
        · simp only [heq, List.map_cons, List.head?_cons, Option.mem_def,
            Option.some.injEq]
          intro x hx
          rw [← hx]
          exact hne
      have hbehead : GroupedByRaces rs ((takeGroup r.name sc ps).2.map Prod.fst) :=
        groupedByRaces_behead hdrop hhd
      have hrec := ih scs₂ (takeGroup r.name sc ps).2 hbehead (by simpa using hlen)
      have hz : (r :: rs).zip (sc :: scs₂) = (r, sc) :: rs.zip scs₂ := rfl
      rw [hz]
      simp only [race_map_fold, List.map_cons, List.flatten_cons]
      rw [hrec]
      exact takeGroup_proj r.name sc ps

theorem map_fst_zip_replicate {α β : Type} (l : List α) (x : β) :
    (l.zip (List.replicate l.length x)).map Prod.fst = l := by
  induction l with
  | nil => rfl
  | cons a t ih =>
    rw [List.length_cons, List.replicate_succ, List.zip_cons_cons,
      List.map_cons, ih]

theorem renderRaceMap_names (races : List Race)
    (participant_list : List ParticipantEntry) :
    (renderRaceMap races participant_list).map (·.race_name)
      = races.map (·.name) := by
  unfold renderRaceMap
  rw [race_map_fold_names, zip_replicate]
  simp

theorem renderRaceMap_flatten (races : List Race)
    (participant_list : List ParticipantEntry)
    (h : GroupedByRaces races participant_list) :
    ((renderRaceMap races participant_list).map
        (fun g => g.participants.map (·.participant))).flatten
      = participant_list := by
  unfold renderRaceMap
  have hfst : (participant_list.zip (List.replicate participant_list.length
        ([] : List SpecialCategoryPerParticipant))).map Prod.fst
      = participant_list := map_fst_zip_replicate participant_list []
  rw [race_map_fold_flatten_of_grouped races _ _ (by rw [hfst]; exact h) (by simp)]
  exact hfst

theorem race_map_fold_flatten_append
    (rsc : List (Race × List SpecialCategories))
    (ps : List (ParticipantEntry × List SpecialCategoryPerParticipant)) :
    ∃ t, ((race_map_fold rsc ps).map
        (fun g => g.participants.map (·.participant))).flatten ++ t
      = ps.map Prod.fst := by
  induction rsc generalizing ps with
  | nil => exact ⟨ps.map Prod.fst, rfl⟩
  | cons hd rest ih =>
    obtain ⟨race, sc⟩ := hd
    obtain ⟨t, ht⟩ := ih (takeGroup race.name sc ps).2
    refine ⟨t, ?_⟩
    simp only [race_map_fold, List.map_cons, List.flatten_cons, List.append_assoc]
    rw [ht]
    exact takeGroup_proj race.name sc ps

theorem mem_zip_replicate {α β : Type} {l : List α} {x y : β} {a : α}
    (h : (a, y) ∈ l.zip (List.replicate l.length x)) : y = x := by
  rw [zip_replicate] at h
  obtain ⟨b, hb, heq⟩ := List.mem_map.mp h
  exact (Prod.mk.injEq _ _ _ _ ▸ heq).2.symm

/-! ## Claim theorems -/

/-- C1: under the §3 ordering invariants — the participant sequence is a
concatenation of per-race contiguous blocks following the race sequence's
order (`GroupedByRaces`) — the grouping pass produces one group per race
in race order, and the groups' participant lists concatenate back to
exactly the participant sequence, so every participant appears under
exactly one race and each race's sub-list keeps the participants' relative
order of appearance. -/
theorem race_grouping_partitions (races : List Race)
    (participant_list : List ParticipantEntry)
    (h : GroupedByRaces races participant_list) :
    (renderRaceMap races participant_list).length = races.length ∧
      (renderRaceMap races participant_list).map (·.race_name)
        = races.map (·.name) ∧
      ((renderRaceMap races participant_list).map
          (fun g => g.participants.map (·.participant))).flatten
        = participant_list := by
  refine ⟨?_, renderRaceMap_names races participant_list,
    renderRaceMap_flatten races participant_list h⟩
  have hlen := congrArg List.length (renderRaceMap_names races participant_list)
  simpa using hlen

/-- Witness for C1 at the §8 example shape: two races, participants
`[alice, bob]` then `[carol]` contiguous per race. -/
theorem race_grouping_partitions_witness :
    (renderRaceMap [race5km, race10km] [alice, bob, carol]).length
        = ([race5km, race10km] : List Race).length ∧
      (renderRaceMap [race5km, race10km] [alice, bob, carol]).map (·.race_name)
        = ([race5km, race10km] : List Race).map (·.name) ∧
      ((renderRaceMap [race5km, race10km] [alice, bob, carol]).map
          (fun g => g.participants.map (·.participant))).flatten
        = [alice, bob, carol] :=
  race_grouping_partitions [race5km, race10km] [alice, bob, carol]
    (by
      have h10 : GroupedByRaces [race10km] ([carol] ++ []) :=
        GroupedByRaces.cons (by decide) GroupedByRaces.nil
      have h5 : GroupedByRaces [race5km, race10km] ([alice, bob] ++ [carol]) :=
        GroupedByRaces.cons (by decide) (by simpa using h10)
      simpa using h5)

/-- C2 counterexample: for the arbitrary inputs the claim quantifies over,
the equality fails — one race named "5km" and one loaded participant whose
race is "10km" give group-count sum 0 against participant-list length 1. -/
theorem sum_counts_counterexample :
    ¬ (((renderRaceMap [race5km] [carol]).map
          (fun g => g.participants.length)).sum
        = ([carol] : List ParticipantEntry).length) := by
  decide

/-- C2 (amended): for inputs satisfying the §3 grouping invariant, the sum
of the participant counts over all race groups equals the length of the
loaded participant sequence. -/
theorem sum_counts_eq_total (races : List Race)
    (participant_list : List ParticipantEntry)
    (h : GroupedByRaces races participant_list) :
    ((renderRaceMap races participant_list).map
        (fun g => g.participants.length)).sum
      = participant_list.length := by
  have hf := renderRaceMap_flatten races participant_list h
  have hl := congrArg List.length hf
  rw [List.length_flatten] at hl
  simpa [List.map_map, Function.comp_def] using hl

/-- Witness for C2's amended theorem on a grouped three-participant input. -/
theorem sum_counts_eq_total_witness :
    ((renderRaceMap [race5km, race10km] [alice, bob, carol]).map
        (fun g => g.participants.length)).sum
      = ([alice, bob, carol] : List ParticipantEntry).length :=
  sum_counts_eq_total [race5km, race10km] [alice, bob, carol]
    (by
      have h10 : GroupedByRaces [race10km] ([carol] ++ []) :=
        GroupedByRaces.cons (by decide) GroupedByRaces.nil
      have h5 : GroupedByRaces [race5km, race10km] ([alice, bob] ++ [carol]) :=
        GroupedByRaces.cons (by decide) (by simpa using h10)
      simpa using h5)

/-- C3: the membership flag computation returns one flag per category of
the race, in category order, true exactly when the participant's
membership rows contain that category's id; an empty membership list
yields all-false and a membership list covering every category yields
all-true. -/
theorem flag_resolver_spec (C : List SpecialCategories)
    (M : List SpecialCategoryPerParticipant) (i : Nat) (hi : i < C.length) :
    (resolveFlags C M).length = C.length ∧
      ((resolveFlags C M)[i]? = some true ↔
        ∃ m ∈ M, m.special_category_id = (C.get ⟨i, hi⟩).id) ∧
      resolveFlags C [] = C.map (fun _ => false) ∧
      ((∀ cat ∈ C, ∃ m ∈ M, m.special_category_id = cat.id) →
        resolveFlags C M = C.map (fun _ => true)) := by
  refine ⟨by simp [resolveFlags], ?_, by simp [resolveFlags], ?_⟩
  · simp only [resolveFlags, List.getElem?_map, List.getElem?_eq_getElem hi,
      List.get_eq_getElem]
    simp [List.any_eq_true]
  · intro hall
    unfold resolveFlags
    apply List.map_congr_left
    intro cat hcat
    obtain ⟨m, hm, hid⟩ := hall cat hcat
    simp only [List.any_eq_true, beq_iff_eq]
    exact ⟨m, hm, hid⟩

/-- Witness for C3: two categories; a membership list holding only the
second category's id gives flag vector with `b[1] = true`; the empty and
the covering membership lists give all-false and all-true. -/
theorem flag_resolver_spec_witness :
    (resolveFlags [catLocal, catVeteran] [memVeteran]).length = 2 ∧
      (resolveFlags [catLocal, catVeteran] [memVeteran])[1]? = some true ∧
      resolveFlags [catLocal, catVeteran] [] = [false, false] ∧
      resolveFlags [catLocal, catVeteran] [memLocal, memVeteran]
        = [true, true] :=
  ⟨(flag_resolver_spec [catLocal, catVeteran] [memVeteran] 1 (by decide)).1,
    (flag_resolver_spec [catLocal, catVeteran] [memVeteran] 1
          (by decide)).2.1.mpr ⟨memVeteran, by decide, by decide⟩,
    (flag_resolver_spec [catLocal, catVeteran] [memVeteran] 1
          (by decide)).2.2.1,
    (flag_resolver_spec [catLocal, catVeteran] [memLocal, memVeteran] 0
          (by decide)).2.2.2 (by decide)⟩

/-- C4: in the current implementation the loaded special-category and
membership result sets are discarded: with any loaded data, the handler's
output is determined by races and participants alone, every race group
carries an empty `special_categories` list and every rendered participant
an empty flag vector. -/
theorem special_categories_discarded (competition_id : Id) (ci : Competition)
    (races : List Race) (loaded_sc : List SpecialCategories)
    (participant_list : List ParticipantEntry)
    (loaded_m : List SpecialCategoryPerParticipant) :
    render_registration_list competition_id (some ci) races loaded_sc
        participant_list loaded_m
      = Except.ok { race_map := renderRaceMap races participant_list
                    competition_info := ci } ∧
      ∀ g ∈ renderRaceMap races participant_list,
        g.special_categories = [] ∧
          ∀ e ∈ g.participants, e.special_categories = [] := by
  refine ⟨rfl, ?_⟩
  intro g hg
  unfold renderRaceMap at hg
  obtain ⟨race, sc, l, hmem, rfl⟩ := race_map_fold_mem _ _ hg
  have hsc : sc = [] := mem_zip_replicate hmem
  subst hsc
  refine ⟨rfl, ?_⟩
  intro e he
  obtain ⟨-, m, hflags⟩ := takeGroup_mem _ _ _ e he
  rw [hflags]
  rfl

/-- Witness for C4 on a one-race, one-participant, one-category input. -/
theorem special_categories_discarded_witness :
    render_registration_list 1 (some ⟨1, "City Run"⟩) [race5km] [catLocal]
        [alice] [memLocal]
      = Except.ok { race_map := renderRaceMap [race5km] [alice]
                    competition_info := ⟨1, "City Run"⟩ } ∧
      (⟨"5km", [⟨alice, []⟩], []⟩ : ParticipantsPerRace).special_categories
          = [] ∧
      (⟨alice, []⟩ : ParticipantEntryWithSpecialCategory).special_categories
          = [] :=
  ⟨(special_categories_discarded 1 ⟨1, "City Run"⟩ [race5km] [catLocal]
      [alice] [memLocal]).1,
    ((special_categories_discarded 1 ⟨1, "City Run"⟩ [race5km] [catLocal]
          [alice] [memLocal]).2 ⟨"5km", [⟨alice, []⟩], []⟩ (by decide)).1,
    ((special_categories_discarded 1 ⟨1, "City Run"⟩ [race5km] [catLocal]
          [alice] [memLocal]).2 ⟨"5km", [⟨alice, []⟩], []⟩ (by decide)).2
      ⟨alice, []⟩ (by decide)⟩

/-- C5: for every group produced by the grouping pass, whatever the zipped
loaded inputs, each rendered participant's flag vector has the same length
as the group's special-category list. -/
theorem flags_length_matches_categories
    (rsc : List (Race × List SpecialCategories))
    (ps : List (ParticipantEntry × List SpecialCategoryPerParticipant))
    (g : ParticipantsPerRace) (hg : g ∈ race_map_fold rsc ps)
    (e : ParticipantEntryWithSpecialCategory) (he : e ∈ g.participants) :
    e.special_categories.length = g.special_categories.length := by
  obtain ⟨race, sc, l, hmem, rfl⟩ := race_map_fold_mem _ _ hg
  obtain ⟨-, m, hflags⟩ := takeGroup_mem _ _ _ e he
  rw [hflags]
  simp [resolveFlags]

/-- Witness for C5 with one race carrying one category and one member
participant. -/
theorem flags_length_matches_categories_witness :
    (⟨alice, [true]⟩ : ParticipantEntryWithSpecialCategory).special_categories.length
      = (⟨"5km", [⟨alice, [true]⟩], [catLocal]⟩ :
          ParticipantsPerRace).special_categories.length :=
  flags_length_matches_categories [(race5km, [catLocal])] [(alice, [memLocal])]
    ⟨"5km", [⟨alice, [true]⟩], [catLocal]⟩ (by decide)
    ⟨alice, [true]⟩ (by decide)

/-- C6: the sequence of race names of the output race groups equals the
sequence of race names of the loaded race list, element for element and in
the same order; the assembler performs no reordering. -/
theorem race_order_preserved (races : List Race)
    (participant_list : List ParticipantEntry) :
    (renderRaceMap races participant_list).map (·.race_name)
      = races.map (·.name) :=
  renderRaceMap_names races participant_list

/-- C7: when the competition lookup returns no row, the handler returns the
`NotFound` error outcome — not a data-access failure and not a successful
report. -/
theorem unknown_competition_not_found (competition_id : Id)
    (races : List Race) (loaded_sc : List SpecialCategories)
    (participant_list : List ParticipantEntry)
    (loaded_m : List SpecialCategoryPerParticipant) :
    render_registration_list competition_id none races loaded_sc
        participant_list loaded_m
      = Except.error
          (Error.NotFound s!"No competition for id {competition_id} found") :=
  rfl

/-- C8: when the contiguity invariant is violated — here the first race's
rows interleave around the second race's row — the grouping pass silently
drops the misplaced trailing participant: the cursor never revisits it, so
it appears in no race's group. -/
theorem interleaved_participants_dropped (rA rB : Race)
    (p1 p2 p3 : ParticipantEntry)
    (h1 : p1.race_name = rA.name) (h2 : p2.race_name = rB.name)
    (h3 : p3.race_name = rA.name) (hne : rA.name ≠ rB.name) :
    (renderRaceMap [rA, rB] [p1, p2, p3]).map
        (fun g => g.participants.map (·.participant)) = [[p1], [p2]] := by
  have hne2 : rB.name ≠ rA.name := Ne.symm hne
  have hz : renderRaceMap [rA, rB] [p1, p2, p3]
      = race_map_fold [(rA, []), (rB, [])] [(p1, []), (p2, []), (p3, [])] :=
    rfl
  rw [hz]
  simp [race_map_fold, takeGroup, h1, h2, h3, hne, hne2, resolveFlags]

/-- Witness for C8: `bob` (a "5km" participant) sits after `carol` (the
"10km" row) and is dropped from the output. -/
theorem interleaved_participants_dropped_witness :
    (renderRaceMap [race5km, race10km] [alice, carol, bob]).map
        (fun g => g.participants.map (·.participant)) = [[alice], [carol]] :=
  interleaved_participants_dropped race5km race10km alice carol bob
    (by decide) (by decide) (by decide) (by decide)

/-- C9: every rendered participant placed in a race group carries a
`race_name` equal to that group's `race_name`, for every input to the
grouping pass. -/
theorem participant_race_name_matches_group
    (rsc : List (Race × List SpecialCategories))
    (ps : List (ParticipantEntry × List SpecialCategoryPerParticipant))
    (g : ParticipantsPerRace) (hg : g ∈ race_map_fold rsc ps)
    (e : ParticipantEntryWithSpecialCategory) (he : e ∈ g.participants) :
    e.participant.race_name = g.race_name := by
  obtain ⟨race, sc, l, hmem, rfl⟩ := race_map_fold_mem _ _ hg
  exact (takeGroup_mem _ _ _ e he).1

/-- Witness for C9 on a one-race, one-participant input. -/
theorem participant_race_name_matches_group_witness :
    (⟨carol, []⟩ : ParticipantEntryWithSpecialCategory).participant.race_name
      = (⟨"10km", [⟨carol, []⟩], []⟩ : ParticipantsPerRace).race_name :=
  participant_race_name_matches_group [(race10km, [])] [(carol, [])]
    ⟨"10km", [⟨carol, []⟩], []⟩ (by decide) ⟨carol, []⟩ (by decide)

/-- C10: for every input, the concatenation of the race groups' participant
lists, in output order, is an initial segment of the loaded participant
sequence — the cursor only moves forward, so nothing is duplicated or
reordered and only a trailing suffix can be dropped. -/
theorem groups_concat_initial_segment (races : List Race)
    (participant_list : List ParticipantEntry) :
    ∃ t, ((renderRaceMap races participant_list).map
        (fun g => g.participants.map (·.participant))).flatten ++ t
      = participant_list := by
  obtain ⟨t, ht⟩ := race_map_fold_flatten_append
    (races.zip (List.replicate races.length []))
    (participant_list.zip (List.replicate participant_list.length []))
  refine ⟨t, ?_⟩
  unfold renderRaceMap
  rw [ht]
  exact map_fst_zip_replicate participant_list []

end RegistrationList
